import Mathlib

/-!
Shallow embedding of the `dijkstras_search` crate (`src/lib.rs`).

The crate provides a generic single-source Dijkstra solver:
* a `Graph` contract (`neighbors`, edge `cost` against an external context),
* `Graph::shortest_path(context, start)` building a predecessor map,
* a `ShortestPath` result with `prev` lookup and backward `sequence`
  reconstruction.

Rust's `BTreeMap` is embedded as a key-sorted association list (`btGet`,
`btInsert`), so that iteration order — which the `min_by` frontier selection
observes — is the ascending key order of the real map.  Costs are embedded as
`Nat` (`u32` in the crate's tests; the algorithm assumes non-negative costs).
The two unbounded `loop`s of the source are embedded as fueled recursions
returning `Option`: `none` means the fuel ran out before the `break`, so a
`some` result is exactly a value the Rust loop returns.
-/

namespace DijkstraSearch

variable {Node E Ctx : Type} {α : Type}

/-- `BTreeMap::get`, on a key-sorted association list. -/
def btGet [DecidableEq Node] (k : Node) : List (Node × α) → Option α
  | [] => none
  | (k', v) :: t => if k = k' then some v else btGet k t

/-- `BTreeMap::insert`, keeping the list sorted by key (replacing on equal key). -/
def btInsert [LinearOrder Node] [DecidableEq Node] (k : Node) (v : α) :
    List (Node × α) → List (Node × α)
  | [] => [(k, v)]
  | (k', v') :: t =>
    if k < k' then (k, v) :: (k', v') :: t
    else if k = k' then (k, v) :: t
    else (k', v') :: btInsert k v t

/-- The `Graph` trait together with the `Edge::cost` capability: a neighbor
enumeration and a context-dependent edge cost. -/
structure Graph (Node E Ctx : Type) where
  neighbors : Node → List (Node × E)
  cost : E → Ctx → Nat

/-- The `ShortestPath` result object: wraps the predecessor map. -/
structure ShortestPath (Node E : Type) where
  prev_map : List (Node × Node × E)

/-- `ShortestPath::prev`: direct lookup in the predecessor map. -/
def ShortestPath.prev [DecidableEq Node] (sp : ShortestPath Node E) (node : Node) :
    Option (Node × E) :=
  btGet node sp.prev_map

/-- The loop of `ShortestPath::sequence`, walking backward from `this` via
`prev`, with fuel; `none` means the loop did not reach a `break` within the
fuel. -/
def sequenceAux [DecidableEq Node] (sp : ShortestPath Node E) (start : Node) :
    Nat → Node → Option (List (Node × E))
  | 0, _ => none
  | fuel + 1, this =>
    if this = start then some []
    else
      match sp.prev this with
      | some p => (sequenceAux sp start fuel p.1).map (fun rest => p :: rest)
      | none => some []

/-- `ShortestPath::sequence(start, goal)` (fueled). -/
def ShortestPath.sequence [DecidableEq Node] (sp : ShortestPath Node E)
    (start goal : Node) (fuel : Nat) : Option (List (Node × E)) :=
  sequenceAux sp start fuel goal

/-- The condition of the relaxation step,
`this_distance.is_none() || this_distance.unwrap().clone() >= alt`,
as the total function it computes on the values where `unwrap` is reached
legally. -/
def relaxCond (this_distance : Option Nat) (alt : Nat) : Bool :=
  match this_distance with
  | none => true
  | some d => decide (d ≥ alt)

/-- `Option::unwrap`, with the panic made explicit as an `Except` error. -/
def unwrapE : Option α → Except Unit α
  | some a => Except.ok a
  | none => Except.error ()

/-- The relaxation condition with Rust's evaluation order made explicit:
`is_none()` is checked first, and only the short-circuited right operand
evaluates `unwrap` (which errors on `none`). -/
def relaxCondChecked (this_distance : Option Nat) (alt : Nat) : Except Unit Bool :=
  if this_distance.isNone then Except.ok true
  else (unwrapE this_distance).map (fun d => decide (d ≥ alt))

/-- One iteration of the `for (this, edge) in self.neighbors(min.clone())`
body: relax the hop `(this, edge)` from the finalized node `m` whose
finalized distance is `minCost`, updating the `(distance, prev)` pair. -/
def relaxOne (g : Graph Node E Ctx) (ctx : Ctx) [LinearOrder Node] [DecidableEq Node]
    (m : Node) (minCost : Nat)
    (dp : List (Node × Nat) × List (Node × Node × E)) (hop : Node × E) :
    List (Node × Nat) × List (Node × Node × E) :=
  let alt := minCost + g.cost hop.2 ctx
  if relaxCond (btGet hop.1 dp.1) alt then
    (btInsert hop.1 alt dp.1, btInsert hop.1 (m, hop.2) dp.2)
  else dp

/-- The mutable state of `Graph::shortest_path`: distance table, predecessor
map, visited set. -/
structure DState (Node E : Type) where
  distance : List (Node × Nat)
  prev : List (Node × Node × E)
  visited : List Node

/-- `iter().filter(unvisited).min_by(cost)`: Rust's `min_by` keeps the first
of equally minimal elements in iteration order. -/
def minBy : List (Node × Nat) → Option (Node × Nat)
  | [] => none
  | p :: t => some (t.foldl (fun q r => if r.2 < q.2 then r else q) p)

/-- One iteration of the main `loop` of `shortest_path`: select the minimal
unvisited entry of the distance table, mark it visited and relax all its
neighbor hops; `none` when the loop `break`s (no unvisited entry remains). -/
def dijkstraStep? [LinearOrder Node] [DecidableEq Node] (g : Graph Node E Ctx)
    (ctx : Ctx) (s : DState Node E) : Option (DState Node E) :=
  match minBy (s.distance.filter (fun p => decide (p.1 ∉ s.visited))) with
  | none => none
  | some md =>
    let dp := (g.neighbors md.1).foldl (relaxOne g ctx md.1 md.2) (s.distance, s.prev)
    some ⟨dp.1, dp.2, md.1 :: s.visited⟩

/-- The main `loop` of `shortest_path`, fueled: `some` is the state at the
`break`, `none` means the fuel ran out first. -/
def dijkstraLoop [LinearOrder Node] [DecidableEq Node] (g : Graph Node E Ctx)
    (ctx : Ctx) : Nat → DState Node E → Option (DState Node E)
  | 0, _ => none
  | fuel + 1, s =>
    match dijkstraStep? g ctx s with
    | none => some s
    | some s' => dijkstraLoop g ctx fuel s'

/-- The initial state of `shortest_path`:
`distance = {start: Default::default()}`, empty `prev`, empty `visited`. -/
def initState [LinearOrder Node] [DecidableEq Node] (start : Node) : DState Node E :=
  ⟨btInsert start 0 [], [], []⟩

/-- `Graph::shortest_path(context, start)` (fueled): run the loop and wrap
the predecessor map. -/
def shortest_path [LinearOrder Node] [DecidableEq Node] (g : Graph Node E Ctx)
    (ctx : Ctx) (start : Node) (fuel : Nat) : Option (ShortestPath Node E) :=
  (dijkstraLoop g ctx fuel (initState start)).map (fun s => ShortestPath.mk s.prev)

/-- The state after `n` iterations of the main loop (`none` once past the
`break`... never: `bind` keeps threading; `none` only if a step broke). -/
def iterState [LinearOrder Node] [DecidableEq Node] (g : Graph Node E Ctx)
    (ctx : Ctx) (s0 : DState Node E) : Nat → Option (DState Node E)
  | 0 => some s0
  | n + 1 => (iterState g ctx s0 n).bind (dijkstraStep? g ctx)

/-- `Reaches g ctx start v c`: there is a walk from `start` to `v` following
`neighbors` hops whose accumulated cost is `c`. -/
inductive Reaches (g : Graph Node E Ctx) (ctx : Ctx) (start : Node) : Node → Nat → Prop
  | refl : Reaches g ctx start start 0
  | step : ∀ {u c v e}, Reaches g ctx start u c → (v, e) ∈ g.neighbors u →
      Reaches g ctx start v (c + g.cost e ctx)

/-! ### The crate's test fixture: `EdgeImpl` / `GraphImpl` -/

/-- The test edge type: endpoints and a weight. -/
structure EdgeImpl where
  from_ : Nat
  to_ : Nat
  weight : Nat
  deriving DecidableEq

/-- `GraphImpl` over an edge list: `neighbors` matches each edge against the
node on either endpoint (treating edges as undirected, `from_` checked
first), and `cost` ignores the context and returns the weight. -/
def graphImpl (edges : List EdgeImpl) : Graph Nat EdgeImpl Unit where
  neighbors := fun node => edges.filterMap (fun e =>
    if e.from_ = node then some (e.to_, e)
    else if e.to_ = node then some (e.from_, e)
    else none)
  cost := fun e _ => e.weight

/-- The graph of `test_0`: 10 nodes, edges 0-1:10, 1-9:50, 1-2:10, 2-3:40, 3-9:10. -/
def testGraph0 : Graph Nat EdgeImpl Unit :=
  graphImpl [⟨0, 1, 10⟩, ⟨1, 9, 50⟩, ⟨1, 2, 10⟩, ⟨2, 3, 40⟩, ⟨3, 9, 10⟩]

/-- The graph of `test_1`: same edges but 2-3 has cost 10. -/
def testGraph1 : Graph Nat EdgeImpl Unit :=
  graphImpl [⟨0, 1, 10⟩, ⟨1, 9, 50⟩, ⟨1, 2, 10⟩, ⟨2, 3, 10⟩, ⟨3, 9, 10⟩]

/-- A two-node graph with a single zero-cost edge. -/
def zeroGraph : Graph Nat EdgeImpl Unit := graphImpl [⟨0, 1, 0⟩]

/-- A two-node graph with a single strictly positive edge. -/
def oneEdgeGraph : Graph Nat EdgeImpl Unit := graphImpl [⟨0, 1, 5⟩]

/-! ### Association-list lemmas -/

variable [LinearOrder Node] [DecidableEq Node]

/-- The key-sortedness maintained by `btInsert`, i.e. the ordering invariant
of `BTreeMap`. -/
def btSorted (l : List (Node × α)) : Prop :=
  List.Pairwise (fun p q : Node × α => p.1 < q.1) l

theorem btSorted_nil : btSorted ([] : List (Node × α)) :=
  List.Pairwise.nil

theorem btSorted_cons {hd : Node × α} {t : List (Node × α)} :
    btSorted (hd :: t) ↔ (∀ q ∈ t, hd.1 < q.1) ∧ btSorted t :=
  List.pairwise_cons

theorem btGet_btInsert_self (k : Node) (v : α) (l : List (Node × α)) :
    btGet k (btInsert k v l) = some v := by
  induction l with
  | nil => simp [btInsert, btGet]
  | cons hd t ih =>
    by_cases h1 : k < hd.1
    · simp [btInsert, h1, btGet]
    · by_cases h2 : k = hd.1
      · simp [btInsert, h1, h2, btGet]
      · simp [btInsert, h1, h2, btGet, ih]

theorem btGet_btInsert_ne {k j : Node} (h : j ≠ k) (v : α) (l : List (Node × α)) :
    btGet j (btInsert k v l) = btGet j l := by
  induction l with
  | nil => simp [btInsert, btGet, h]
  | cons hd t ih =>
    by_cases h1 : k < hd.1
    · simp [btInsert, h1, btGet, h]
    · by_cases h2 : k = hd.1
      · subst h2
        simp [btInsert, h1, btGet, h]
      · by_cases h3 : j = hd.1 <;> simp [btInsert, h1, h2, btGet, h3, ih]

theorem mem_btInsert {q : Node × α} {k : Node} {v : α} {l : List (Node × α)}
    (h : q ∈ btInsert k v l) : q = (k, v) ∨ q ∈ l := by
  induction l with
  | nil => simpa [btInsert] using h
  | cons hd t ih =>
    by_cases h1 : k < hd.1
    · simp only [btInsert, if_pos h1, List.mem_cons] at h
      rcases h with h | h | h
      · exact Or.inl h
      · exact Or.inr (by simp [h])
      · exact Or.inr (by simp [h])
    · by_cases h2 : k = hd.1
      · simp only [btInsert, if_neg h1, if_pos h2, List.mem_cons] at h
        rcases h with h | h
        · exact Or.inl h
        · exact Or.inr (by simp [h])
      · simp only [btInsert, if_neg h1, if_neg h2, List.mem_cons] at h
        rcases h with h | h
        · exact Or.inr (by simp [h])
        · rcases ih h with h | h
          · exact Or.inl h
          · exact Or.inr (by simp [h])

theorem btSorted_btInsert {l : List (Node × α)} (hs : btSorted l) (k : Node) (v : α) :
    btSorted (btInsert k v l) := by
  induction l with
  | nil =>
    rw [btInsert]
    exact btSorted_cons.mpr ⟨by simp, btSorted_nil⟩
  | cons hd t ih =>
    rw [btSorted_cons] at hs
    by_cases h1 : k < hd.1
    · rw [btInsert, if_pos h1, btSorted_cons]
      refine ⟨?_, btSorted_cons.mpr hs⟩
      intro q hq
      rcases List.mem_cons.mp hq with hq | hq
      · simp [hq, h1]
      · exact lt_trans h1 (hs.1 q hq)
    · by_cases h2 : k = hd.1
      · rw [btInsert, if_neg h1, if_pos h2, btSorted_cons]
        exact ⟨fun q hq => h2 ▸ hs.1 q hq, hs.2⟩
      · rw [btInsert, if_neg h1, if_neg h2, btSorted_cons]
        refine ⟨?_, ih hs.2⟩
        intro q hq
        rcases mem_btInsert hq with hq | hq
        · have : hd.1 < k := lt_of_le_of_ne (not_lt.mp h1) (fun hc => h2 hc.symm)
          simp [hq, this]
        · exact hs.1 q hq

theorem btGet_of_mem_sorted {l : List (Node × α)} (hs : btSorted l) {k : Node} {v : α}
    (h : (k, v) ∈ l) : btGet k l = some v := by
  induction l with
  | nil => simp at h
  | cons hd t ih =>
    rw [btSorted_cons] at hs
    rcases List.mem_cons.mp h with h | h
    · simp [btGet, ← h]
    · have hk : hd.1 < k := hs.1 (k, v) h
      have hne : k ≠ hd.1 := fun hc => absurd (hc ▸ hk) (lt_irrefl _)
      simp [btGet, hne, ih hs.2 h]

theorem btGet_some_mem {l : List (Node × α)} {k : Node} {v : α}
    (h : btGet k l = some v) : (k, v) ∈ l := by
  induction l with
  | nil => simp [btGet] at h
  | cons hd t ih =>
    by_cases h1 : k = hd.1
    · rw [btGet, if_pos h1] at h
      exact List.mem_cons.mpr (Or.inl (by cases hd; simp_all))
    · rw [btGet, if_neg h1] at h
      exact List.mem_cons.mpr (Or.inr (ih h))

theorem btGet_isSome_mem_keys {l : List (Node × α)} {k : Node}
    (h : btGet k l ≠ none) : ∃ v, (k, v) ∈ l := by
  cases hv : btGet k l with
  | none => exact absurd hv h
  | some v => exact ⟨v, btGet_some_mem hv⟩

/-! ### `min_by` lemmas -/

theorem minBy_foldl_mem (t : List (Node × Nat)) (acc : Node × Nat) :
    t.foldl (fun q r => if r.2 < q.2 then r else q) acc ∈ acc :: t := by
  induction t generalizing acc with
  | nil => simp
  | cons r t' ih =>
    rw [List.foldl_cons]
    by_cases hr : r.2 < acc.2
    · rw [if_pos hr]
      rcases List.mem_cons.mp (ih r) with h | h
      · simp [h]
      · simp [h]
    · rw [if_neg hr]
      rcases List.mem_cons.mp (ih acc) with h | h
      · simp [h]
      · simp [h]

theorem minBy_foldl_le (t : List (Node × Nat)) (acc : Node × Nat) :
    (t.foldl (fun q r => if r.2 < q.2 then r else q) acc).2 ≤ acc.2 ∧
      ∀ q ∈ t, (t.foldl (fun q r => if r.2 < q.2 then r else q) acc).2 ≤ q.2 := by
  induction t generalizing acc with
  | nil => simp
  | cons r t' ih =>
    rw [List.foldl_cons]
    by_cases hr : r.2 < acc.2
    · rw [if_pos hr]
      have h := ih r
      refine ⟨le_trans h.1 (le_of_lt hr), ?_⟩
      intro q hq
      rcases List.mem_cons.mp hq with hq | hq
      · exact hq ▸ h.1
      · exact h.2 q hq
    · rw [if_neg hr]
      have h := ih acc
      refine ⟨h.1, ?_⟩
      intro q hq
      rcases List.mem_cons.mp hq with hq | hq
      · exact hq ▸ le_trans h.1 (not_lt.mp hr)
      · exact h.2 q hq

theorem minBy_mem {l : List (Node × Nat)} {p : Node × Nat} (h : minBy l = some p) :
    p ∈ l := by
  cases l with
  | nil => simp [minBy] at h
  | cons hd t =>
    rw [minBy, Option.some_inj] at h
    exact h ▸ minBy_foldl_mem t hd

theorem minBy_le {l : List (Node × Nat)} {p : Node × Nat} (h : minBy l = some p) :
    ∀ q ∈ l, p.2 ≤ q.2 := by
  cases l with
  | nil => simp [minBy] at h
  | cons hd t =>
    rw [minBy, Option.some_inj] at h
    intro q hq
    rcases List.mem_cons.mp hq with hq | hq
    · exact hq ▸ h ▸ (minBy_foldl_le t hd).1
    · exact h ▸ (minBy_foldl_le t hd).2 q hq

/-! ### `sequence` lemmas -/

theorem seqAux_mono {sp : ShortestPath Node E} {start : Node} {f : Nat} {x : Node}
    {l : List (Node × E)} (h : sequenceAux sp start f x = some l) (k : Nat) :
    sequenceAux sp start (f + k) x = some l := by
  induction f generalizing x l with
  | zero => simp [sequenceAux] at h
  | succ f ih =>
    rw [Nat.succ_add]
    by_cases hx : x = start
    · rw [sequenceAux, if_pos hx] at h ⊢
      exact h
    · rw [sequenceAux, if_neg hx] at h ⊢
      cases hp : sp.prev x with
      | none => rw [hp] at h; exact h
      | some p =>
        rw [hp] at h
        have h' : (sequenceAux sp start f p.1).map (fun rest => p :: rest) = some l := h
        show (sequenceAux sp start (f + k) p.1).map (fun rest => p :: rest) = some l
        cases hrec : sequenceAux sp start f p.1 with
        | none => rw [hrec] at h'; simp at h'
        | some rest =>
          rw [hrec] at h'
          rw [ih hrec]
          exact h'

theorem seqAux_mem {sp : ShortestPath Node E} {start : Node} {f : Nat} {x : Node}
    {l : List (Node × E)} (h : sequenceAux sp start f x = some l) :
    ∀ p ∈ l, ∃ f' l', f' < f ∧ sequenceAux sp start f' p.1 = some l' ∧
      l'.length < l.length := by
  induction f generalizing x l with
  | zero => simp [sequenceAux] at h
  | succ f ih =>
    by_cases hx : x = start
    · rw [sequenceAux, if_pos hx] at h
      intro p hp
      rw [← Option.some_inj.mp h] at hp
      simp at hp
    · rw [sequenceAux, if_neg hx] at h
      cases hpr : sp.prev x with
      | none =>
        rw [hpr] at h
        have h' : some ([] : List (Node × E)) = some l := h
        intro p hp
        rw [← Option.some_inj.mp h'] at hp
        simp at hp
      | some q =>
        rw [hpr] at h
        have h' : (sequenceAux sp start f q.1).map (fun rest => q :: rest) = some l := h
        cases hrec : sequenceAux sp start f q.1 with
        | none => rw [hrec] at h'; simp at h'
        | some rest =>
          rw [hrec] at h'
          rw [show ((some rest).map (fun r => q :: r) : Option (List (Node × E))) =
            some (q :: rest) from rfl] at h'
          rw [Option.some_inj] at h'
          intro p hp
          rw [← h'] at hp
          rcases List.mem_cons.mp hp with hpq | hpq
          · exact ⟨f, rest, Nat.lt_succ_self f, hpq ▸ hrec, by rw [← h']; simp⟩
          · rcases ih hrec p hpq with ⟨f', l', hf', hseq, hlen⟩
            exact ⟨f', l', Nat.lt_succ_of_lt hf', hseq,
              by rw [← h']; exact Nat.lt_succ_of_lt hlen⟩

theorem seq_goal_not_emitted {sp : ShortestPath Node E} {start goal : Node} {f : Nat}
    {l : List (Node × E)} (h : sequenceAux sp start f goal = some l) :
    ∀ e, (goal, e) ∉ l := by
  intro e hmem
  rcases seqAux_mem h (goal, e) hmem with ⟨f', l', hf', hseq, hlen⟩
  have : sequenceAux sp start (f' + (f - f')) goal = some l' := seqAux_mono hseq _
  rw [Nat.add_sub_cancel' (le_of_lt hf')] at this
  rw [h] at this
  rw [Option.some_inj.mp this] at hlen
  exact absurd hlen (lt_irrefl _)

/-! ### Loop unfolding lemmas -/

theorem dijkstraLoop_zero (g : Graph Node E Ctx) (ctx : Ctx) (s : DState Node E) :
    dijkstraLoop g ctx 0 s = none := rfl

theorem dijkstraLoop_succ (g : Graph Node E Ctx) (ctx : Ctx) (fuel : Nat)
    (s : DState Node E) :
    dijkstraLoop g ctx (fuel + 1) s =
      match dijkstraStep? g ctx s with
      | none => some s
      | some s' => dijkstraLoop g ctx fuel s' := rfl

theorem dijkstraLoop_succ_of_step {g : Graph Node E Ctx} {ctx : Ctx} {s s' : DState Node E}
    (fuel : Nat) (h : dijkstraStep? g ctx s = some s') :
    dijkstraLoop g ctx (fuel + 1) s = dijkstraLoop g ctx fuel s' := by
  rw [dijkstraLoop_succ, h]

theorem dijkstraLoop_succ_of_break {g : Graph Node E Ctx} {ctx : Ctx} {s : DState Node E}
    (fuel : Nat) (h : dijkstraStep? g ctx s = none) :
    dijkstraLoop g ctx (fuel + 1) s = some s := by
  rw [dijkstraLoop_succ, h]

/-! ### Claim theorems (first group) -/

/-- C1: in the relaxation step, the candidate `alt = minCost + edge.cost(ctx)`
replaces the neighbor's recorded distance and sets its predecessor to
`(m, edge)` exactly when the neighbor has no recorded distance yet or its
recorded distance is `≥ alt` (so an equal-cost path overwrites); otherwise
the state is unchanged. -/
theorem relaxation_updates_iff (g : Graph Node E Ctx) (ctx : Ctx) (m nb : Node)
    (minCost : Nat) (dist : List (Node × Nat)) (prev : List (Node × Node × E))
    (edge : E) :
    (btGet nb dist = none ∨ (∃ d, btGet nb dist = some d ∧ minCost + g.cost edge ctx ≤ d) →
      relaxOne g ctx m minCost (dist, prev) (nb, edge) =
        (btInsert nb (minCost + g.cost edge ctx) dist, btInsert nb (m, edge) prev))
    ∧ ((∃ d, btGet nb dist = some d ∧ d < minCost + g.cost edge ctx) →
      relaxOne g ctx m minCost (dist, prev) (nb, edge) = (dist, prev)) := by
  constructor
  · rintro (h | ⟨d, hd, hle⟩)
    · simp [relaxOne, relaxCond, h]
    · simp [relaxOne, relaxCond, hd, hle]
  · rintro ⟨d, hd, hlt⟩
    simp [relaxOne, relaxCond, hd, not_le.mpr hlt]

/-- C1 witness: on an empty distance table the relaxation fires (first
disjunct), at concrete inputs. -/
theorem relaxation_updates_iff_witness :
    (btGet 0 ([] : List (Nat × Nat)) = none ∨
      (∃ d, btGet 0 ([] : List (Nat × Nat)) = some d ∧ 0 + zeroGraph.cost ⟨0, 1, 0⟩ () ≤ d))
    ∧ relaxOne zeroGraph () 1 0 (([] : List (Nat × Nat)), ([] : List (Nat × Nat × EdgeImpl)))
        ((0 : Nat), (⟨0, 1, 0⟩ : EdgeImpl)) =
      (btInsert 0 (0 + zeroGraph.cost ⟨0, 1, 0⟩ ()) [], btInsert 0 (1, ⟨0, 1, 0⟩) []) :=
  ⟨Or.inl rfl,
    (relaxation_updates_iff zeroGraph () 1 0 0 [] [] ⟨0, 1, 0⟩).1 (Or.inl rfl)⟩

/-- C9: the relaxation condition, with Rust's short-circuit evaluation and
`unwrap`'s panic modelled as an `Except` error, never errors — the `is_none`
check guards the `unwrap` — and the Bool it returns is exactly the condition
`relaxOne` branches on. -/
theorem relaxation_unwrap_safe (g : Graph Node E Ctx) (ctx : Ctx) (m : Node)
    (minCost : Nat) (dp : List (Node × Nat) × List (Node × Node × E)) (hop : Node × E) :
    ∃ b, relaxCondChecked (btGet hop.1 dp.1) (minCost + g.cost hop.2 ctx) = Except.ok b
      ∧ relaxOne g ctx m minCost dp hop =
        (if b then (btInsert hop.1 (minCost + g.cost hop.2 ctx) dp.1,
                    btInsert hop.1 (m, hop.2) dp.2)
         else dp) := by
  refine ⟨relaxCond (btGet hop.1 dp.1) (minCost + g.cost hop.2 ctx), ?_, ?_⟩
  · cases h : btGet hop.1 dp.1 <;>
      simp [relaxCondChecked, unwrapE, relaxCond, h, Except.map]
  · rfl

/-- C2: `sequence(start, goal)` walks backward from `goal` via `prev`: it
stops immediately (emitting nothing) when the current node equals `start` or
when the `prev` lookup fails; otherwise it emits the looked-up
`(predecessor, edge)` pair first and continues from that predecessor; and
whenever the loop terminates, `goal` itself never occurs among the emitted
pairs. -/
theorem sequence_walk (sp : ShortestPath Node E) (start goal : Node) (f : Nat) :
    (goal = start → sp.sequence start goal (f + 1) = some [])
    ∧ (goal ≠ start → sp.prev goal = none → sp.sequence start goal (f + 1) = some [])
    ∧ (∀ p, goal ≠ start → sp.prev goal = some p →
        sp.sequence start goal (f + 1) =
          (sequenceAux sp start f p.1).map (fun rest => p :: rest))
    ∧ (∀ l, sp.sequence start goal f = some l → ∀ e, (goal, e) ∉ l) := by
  refine ⟨?_, ?_, ?_, ?_⟩
  · intro h
    rw [ShortestPath.sequence, sequenceAux, if_pos h]
  · intro h hp
    rw [ShortestPath.sequence, sequenceAux, if_neg h, hp]
  · intro p h hp
    rw [ShortestPath.sequence, sequenceAux, if_neg h, hp]
  · intro l h
    exact seq_goal_not_emitted h

/-- C2 witness: on the `test_0` predecessor structure, the walk from goal 9
emits `(1, e19)` first and goal 9 is not among the emitted pairs. -/
theorem sequence_walk_witness :
    ((9 : Nat) ≠ 0)
    ∧ (ShortestPath.mk [(1, 0, ⟨0, 1, 10⟩), (2, 1, ⟨1, 2, 10⟩), (3, 2, ⟨2, 3, 40⟩),
        (9, 1, ⟨1, 9, 50⟩)] : ShortestPath Nat EdgeImpl).prev 9 = some (1, ⟨1, 9, 50⟩)
    ∧ (ShortestPath.mk [(1, 0, ⟨0, 1, 10⟩), (2, 1, ⟨1, 2, 10⟩), (3, 2, ⟨2, 3, 40⟩),
        (9, 1, ⟨1, 9, 50⟩)] : ShortestPath Nat EdgeImpl).sequence 0 9 3 =
        (sequenceAux (ShortestPath.mk [(1, 0, ⟨0, 1, 10⟩), (2, 1, ⟨1, 2, 10⟩),
          (3, 2, ⟨2, 3, 40⟩), (9, 1, ⟨1, 9, 50⟩)] : ShortestPath Nat EdgeImpl) 0 2
          1).map (fun rest => (1, ⟨1, 9, 50⟩) :: rest) :=
  ⟨by decide, rfl,
    ((sequence_walk (ShortestPath.mk [(1, 0, ⟨0, 1, 10⟩), (2, 1, ⟨1, 2, 10⟩),
        (3, 2, ⟨2, 3, 40⟩), (9, 1, ⟨1, 9, 50⟩)] : ShortestPath Nat EdgeImpl)
        0 9 2).2.2.1 (1, ⟨1, 9, 50⟩) (by decide) rfl)⟩

/-- C5: on the crate's two ten-node test scenarios (`test_0`, `test_1`),
`sequence(0, 9)` after `shortest_path` from node 0 reconstructs, goal to
start, the node orders `9←1←0` (i.e. `[1, 0]`) and `9←3←2←1←0`
(i.e. `[3, 2, 1, 0]`). -/
theorem test_scenarios :
    ((shortest_path testGraph0 () 0 11).bind
      (fun sp => sp.sequence 0 9 11)).map (fun l => l.map Prod.fst) = some [1, 0]
    ∧ ((shortest_path testGraph1 () 0 11).bind
      (fun sp => sp.sequence 0 9 11)).map (fun l => l.map Prod.fst) =
        some [3, 2, 1, 0] :=
  ⟨rfl, rfl⟩

/-- C7: `sequence(n, n)` is empty for every result object, and a start node
with no neighbors still yields a result object whose `prev` at `start` is
nothing and whose `sequence(start, start)` is empty. -/
theorem self_sequence_empty :
    (∀ (sp : ShortestPath Node E) (n : Node) (f : Nat), sp.sequence n n (f + 1) = some [])
    ∧ (∀ (g : Graph Node E Ctx) (ctx : Ctx) (start : Node), g.neighbors start = [] →
        shortest_path g ctx start 2 = some (ShortestPath.mk [])
        ∧ (ShortestPath.mk [] : ShortestPath Node E).prev start = none
        ∧ (ShortestPath.mk [] : ShortestPath Node E).sequence start start 1 = some []) := by
  constructor
  · intro sp n f
    rw [ShortestPath.sequence, sequenceAux, if_pos rfl]
  · intro g ctx start h
    refine ⟨?_, rfl, by rw [ShortestPath.sequence, sequenceAux, if_pos rfl]⟩
    have h1 : dijkstraStep? g ctx (initState start) =
        some ⟨[(start, 0)], [], [start]⟩ := by
      simp [dijkstraStep?, initState, btInsert, minBy, List.filter, h]
    have h2 : dijkstraStep? g ctx ⟨[(start, 0)], [], [start]⟩ = none := by
      simp [dijkstraStep?, List.filter, minBy]
    rw [shortest_path, show (2 : Nat) = 1 + 1 from rfl,
      dijkstraLoop_succ_of_step 1 h1, dijkstraLoop_succ_of_break 0 h2]
    rfl

/-! ### Relaxation fold lemmas -/

/-- Each existing distance entry survives the relaxation of all hops of a
finalized node, only lowered or kept. -/
theorem relax_mono (g : Graph Node E Ctx) (ctx : Ctx) (m : Node) (dm : Nat)
    (hops : List (Node × E)) :
    ∀ (dp : List (Node × Nat) × List (Node × Node × E)) (v : Node) (d : Nat),
      btGet v dp.1 = some d →
      ∃ d', btGet v (hops.foldl (relaxOne g ctx m dm) dp).1 = some d' ∧ d' ≤ d := by
  induction hops with
  | nil => exact fun dp v d h => ⟨d, h, le_refl d⟩
  | cons hop t ih =>
    intro dp v d h
    rw [List.foldl_cons]
    by_cases hv : hop.1 = v
    · subst hv
      by_cases hc : relaxCond (btGet hop.1 dp.1) (dm + g.cost hop.2 ctx) = true
      · have halt : dm + g.cost hop.2 ctx ≤ d := by
          rw [h] at hc
          rw [relaxCond] at hc
          simpa using hc
        have hget : btGet hop.1 (relaxOne g ctx m dm dp hop).1 =
            some (dm + g.cost hop.2 ctx) := by
          rw [relaxOne, if_pos hc]
          exact btGet_btInsert_self _ _ _
        rcases ih (relaxOne g ctx m dm dp hop) hop.1 _ hget with ⟨d', hd', hle⟩
        exact ⟨d', hd', le_trans hle halt⟩
      · rw [relaxOne, if_neg hc]
        exact ih dp hop.1 d h
    · have hget : btGet v (relaxOne g ctx m dm dp hop).1 = some d := by
        rw [relaxOne]
        by_cases hc : relaxCond (btGet hop.1 dp.1) (dm + g.cost hop.2 ctx) = true
        · rw [if_pos hc]
          rw [btGet_btInsert_ne (fun hvv => hv hvv.symm)]
          exact h
        · rw [if_neg hc]; exact h
      exact ih (relaxOne g ctx m dm dp hop) v d hget

/-- Coupling of the two tables through the relaxation of all hops: each
node's entries are either untouched, or were last written by some hop
`(v, e)`, in which case the distance is `dm + cost e` and the predecessor
`(m, e)`. -/
theorem relax_coupling (g : Graph Node E Ctx) (ctx : Ctx) (m : Node) (dm : Nat)
    (hops : List (Node × E)) :
    ∀ (dp : List (Node × Nat) × List (Node × Node × E)) (v : Node),
      (btGet v (hops.foldl (relaxOne g ctx m dm) dp).1 = btGet v dp.1
        ∧ btGet v (hops.foldl (relaxOne g ctx m dm) dp).2 = btGet v dp.2)
      ∨ (∃ e, (v, e) ∈ hops
          ∧ btGet v (hops.foldl (relaxOne g ctx m dm) dp).1 = some (dm + g.cost e ctx)
          ∧ btGet v (hops.foldl (relaxOne g ctx m dm) dp).2 = some (m, e)) := by
  induction hops with
  | nil => exact fun dp v => Or.inl ⟨rfl, rfl⟩
  | cons hop t ih =>
    intro dp v
    rw [List.foldl_cons]
    by_cases hc : relaxCond (btGet hop.1 dp.1) (dm + g.cost hop.2 ctx) = true
    · have hdp : relaxOne g ctx m dm dp hop =
          (btInsert hop.1 (dm + g.cost hop.2 ctx) dp.1, btInsert hop.1 (m, hop.2) dp.2) := by
        rw [relaxOne, if_pos hc]
      rcases ih (relaxOne g ctx m dm dp hop) v with ⟨h1, h2⟩ | ⟨e, he, h1, h2⟩
      · rw [hdp] at h1 h2 ⊢
        by_cases hv : hop.1 = v
        · subst hv
          rw [btGet_btInsert_self] at h1
          rw [btGet_btInsert_self] at h2
          exact Or.inr ⟨hop.2, List.mem_cons.mpr (Or.inl rfl), h1, h2⟩
        · rw [btGet_btInsert_ne (fun hvv => hv hvv.symm)] at h1
          rw [btGet_btInsert_ne (fun hvv => hv hvv.symm)] at h2
          exact Or.inl ⟨h1, h2⟩
      · rw [hdp] at h1 h2 ⊢
        exact Or.inr ⟨e, List.mem_cons.mpr (Or.inr he), h1, h2⟩
    · have hdp : relaxOne g ctx m dm dp hop = dp := by
        rw [relaxOne, if_neg hc]
      rcases ih (relaxOne g ctx m dm dp hop) v with ⟨h1, h2⟩ | ⟨e, he, h1, h2⟩
      · rw [hdp] at h1 h2 ⊢
        exact Or.inl ⟨h1, h2⟩
      · rw [hdp] at h1 h2 ⊢
        exact Or.inr ⟨e, List.mem_cons.mpr (Or.inr he), h1, h2⟩

/-- Sortedness of the distance table survives the relaxation fold. -/
theorem relax_sorted (g : Graph Node E Ctx) (ctx : Ctx) (m : Node) (dm : Nat)
    (hops : List (Node × E)) :
    ∀ (dp : List (Node × Nat) × List (Node × Node × E)), btSorted dp.1 →
      btSorted (hops.foldl (relaxOne g ctx m dm) dp).1 := by
  induction hops with
  | nil => exact fun dp h => h
  | cons hop t ih =>
    intro dp h
    rw [List.foldl_cons]
    refine ih _ ?_
    rw [relaxOne]
    by_cases hc : relaxCond (btGet hop.1 dp.1) (dm + g.cost hop.2 ctx) = true
    · rw [if_pos hc]
      exact btSorted_btInsert h _ _
    · rw [if_neg hc]; exact h

/-- After relaxing all hops of the finalized node, every hop's target holds
a distance bounded by `dm + cost` of that hop. -/
theorem relax_bound (g : Graph Node E Ctx) (ctx : Ctx) (m : Node) (dm : Nat)
    (hops : List (Node × E)) :
    ∀ (dp : List (Node × Nat) × List (Node × Node × E)), ∀ hop ∈ hops,
      ∃ dv, btGet hop.1 (hops.foldl (relaxOne g ctx m dm) dp).1 = some dv
        ∧ dv ≤ dm + g.cost hop.2 ctx := by
  induction hops with
  | nil => simp
  | cons hop0 t ih =>
    intro dp hop hmem
    rw [List.foldl_cons]
    rcases List.mem_cons.mp hmem with hq | hq
    · subst hq
      have step1 : ∃ d0, btGet hop.1 (relaxOne g ctx m dm dp hop).1 = some d0
          ∧ d0 ≤ dm + g.cost hop.2 ctx := by
        rw [relaxOne]
        by_cases hc : relaxCond (btGet hop.1 dp.1) (dm + g.cost hop.2 ctx) = true
        · rw [if_pos hc]
          exact ⟨dm + g.cost hop.2 ctx, btGet_btInsert_self _ _ _, le_refl _⟩
        · rw [if_neg hc]
          cases hg : btGet hop.1 dp.1 with
          | none => rw [hg, relaxCond] at hc; simp at hc
          | some d =>
            refine ⟨d, rfl, ?_⟩
            rw [hg, relaxCond] at hc
            simp only [decide_eq_true_eq] at hc
            exact le_of_lt (not_le.mp hc)
      rcases step1 with ⟨d0, hg0, hle0⟩
      rcases relax_mono g ctx m dm t _ hop.1 d0 hg0 with ⟨d', hg', hle'⟩
      exact ⟨d', hg', le_trans hle' hle0⟩
    · exact ih (relaxOne g ctx m dm dp hop0) hop hq

/-- Keys added to the distance table by a relaxation fold come from the hop
list. -/
theorem relax_keys (g : Graph Node E Ctx) (ctx : Ctx) (m : Node) (dm : Nat)
    (hops : List (Node × E)) (dp : List (Node × Nat) × List (Node × Node × E))
    (v : Node) (d' : Nat)
    (h : (v, d') ∈ (hops.foldl (relaxOne g ctx m dm) dp).1) :
    (∃ d, (v, d) ∈ dp.1) ∨ ∃ e, (v, e) ∈ hops := by
  induction hops generalizing dp d' with
  | nil => exact Or.inl ⟨d', h⟩
  | cons hop t ih =>
    rw [List.foldl_cons] at h
    rcases ih _ _ h with ⟨d, hd⟩ | he
    · rw [relaxOne] at hd
      by_cases hc : relaxCond (btGet hop.1 dp.1) (dm + g.cost hop.2 ctx) = true
      · rw [if_pos hc] at hd
        rcases mem_btInsert hd with hq | hq
        · exact Or.inr ⟨hop.2, by rw [show v = hop.1 from congrArg Prod.fst hq]; simp⟩
        · exact Or.inl ⟨d, hq⟩
      · rw [if_neg hc] at hd
        exact Or.inl ⟨d, hd⟩
    · rcases he with ⟨e, he⟩
      exact Or.inr ⟨e, List.mem_cons.mpr (Or.inr he)⟩

/-- Destructor for a successful step of the main loop: the selected entry is
the `min_by` minimum of the unvisited frontier, and the next state is the
relaxation fold plus the newly visited node. -/
theorem step_some_elim {g : Graph Node E Ctx} {ctx : Ctx} {s s' : DState Node E}
    (h : dijkstraStep? g ctx s = some s') :
    ∃ md, minBy (s.distance.filter (fun p => decide (p.1 ∉ s.visited))) = some md
      ∧ s' = ⟨((g.neighbors md.1).foldl (relaxOne g ctx md.1 md.2) (s.distance, s.prev)).1,
              ((g.neighbors md.1).foldl (relaxOne g ctx md.1 md.2) (s.distance, s.prev)).2,
              md.1 :: s.visited⟩ := by
  rw [dijkstraStep?] at h
  cases hm : minBy (s.distance.filter (fun p => decide (p.1 ∉ s.visited))) with
  | none => rw [hm] at h; exact absurd h (by simp)
  | some md =>
    rw [hm] at h
    exact ⟨md, rfl, (Option.some_inj.mp h).symm⟩

/-- The selected frontier entry: in the distance table, unvisited, minimal
among unvisited entries. -/
theorem step_min_facts {s : DState Node E} {md : Node × Nat}
    (hm : minBy (s.distance.filter (fun p => decide (p.1 ∉ s.visited))) = some md) :
    (md.1, md.2) ∈ s.distance ∧ md.1 ∉ s.visited
      ∧ ∀ q ∈ s.distance, q.1 ∉ s.visited → md.2 ≤ q.2 := by
  have hmem := minBy_mem hm
  rw [List.mem_filter] at hmem
  refine ⟨hmem.1, by simpa using hmem.2, ?_⟩
  intro q hq hqv
  exact minBy_le hm q (List.mem_filter.mpr ⟨hq, by simpa using hqv⟩)

/-! ### C4: termination -/

theorem loop_terminates_aux (g : Graph Node E Ctx) (ctx : Ctx) (ns : List Node)
    (hcl : ∀ u v e, (v, e) ∈ g.neighbors u → v ∈ ns) :
    ∀ (fuel : Nat) (s : DState Node E),
      (∀ v d, (v, d) ∈ s.distance → v ∈ ns) →
      s.visited.Nodup → (∀ v ∈ s.visited, v ∈ ns) →
      ns.length + 1 ≤ fuel + s.visited.length →
      ∃ r, dijkstraLoop g ctx fuel s = some r := by
  intro fuel
  induction fuel with
  | zero =>
    intro s hk hnd hsub hlen
    have hvle : s.visited.length ≤ ns.length :=
      (List.subperm_of_subset hnd fun a ha => hsub a ha).length_le
    omega
  | succ fuel ih =>
    intro s hk hnd hsub hlen
    cases hstep : dijkstraStep? g ctx s with
    | none => exact ⟨s, dijkstraLoop_succ_of_break fuel hstep⟩
    | some s' =>
      rw [dijkstraLoop_succ_of_step fuel hstep]
      rcases step_some_elim hstep with ⟨md, hm, hs'⟩
      rcases step_min_facts hm with ⟨hmd_mem, hmd_nv, _⟩
      have hmd_ns : md.1 ∈ ns := hk md.1 md.2 hmd_mem
      refine ih s' ?_ ?_ ?_ ?_
      · intro v d hvd
        rw [hs'] at hvd
        rcases relax_keys g ctx md.1 md.2 (g.neighbors md.1) (s.distance, s.prev) v d hvd
          with ⟨d0, hd0⟩ | ⟨e, he⟩
        · exact hk v d0 hd0
        · exact hcl md.1 v e he
      · rw [hs']
        exact List.Nodup.cons hmd_nv hnd
      · intro v hv
        rw [hs'] at hv
        rcases List.mem_cons.mp hv with hv | hv
        · exact hv ▸ hmd_ns
        · exact hsub v hv
      · rw [hs']
        simp only [List.length_cons]
        omega

/-- C4: on a finite graph (all nodes drawn from a list `ns` closed under
`neighbors`, containing `start`) the main loop reaches its `break` within
`|ns| + 1` iterations — `shortest_path` terminates — and every non-exiting
iteration finalizes exactly one previously unvisited node. -/
theorem shortest_path_terminates (g : Graph Node E Ctx) (ctx : Ctx) (start : Node)
    (ns : List Node) (hstart : start ∈ ns)
    (hcl : ∀ u v e, (v, e) ∈ g.neighbors u → v ∈ ns) :
    (∃ r, shortest_path g ctx start (ns.length + 1) = some r)
    ∧ (∀ s s' : DState Node E, dijkstraStep? g ctx s = some s' →
        ∃ m, m ∉ s.visited ∧ s'.visited = m :: s.visited) := by
  constructor
  · have hinit : ∀ v d, (v, d) ∈ (initState start : DState Node E).distance → v ∈ ns := by
      intro v d hvd
      have : (v, d) ∈ [(start, (0 : Nat))] := hvd
      rw [List.mem_singleton] at this
      rw [show v = start from congrArg Prod.fst this]
      exact hstart
    rcases loop_terminates_aux g ctx ns hcl (ns.length + 1) (initState start) hinit
      List.nodup_nil (by simp [initState]) (by simp) with ⟨r, hr⟩
    exact ⟨ShortestPath.mk r.prev, by rw [shortest_path, hr]; rfl⟩
  · intro s s' hstep
    rcases step_some_elim hstep with ⟨md, hm, hs'⟩
    exact ⟨md.1, (step_min_facts hm).2.1, by rw [hs']⟩

/-- Membership in `graphImpl` neighbor lists comes from the edge list. -/
theorem graphImpl_neighbors_mem {edges : List EdgeImpl} {u v : Nat} {e : EdgeImpl}
    (h : (v, e) ∈ (graphImpl edges).neighbors u) :
    e ∈ edges ∧ (v = e.to_ ∨ v = e.from_) := by
  rw [graphImpl] at h
  simp only [List.mem_filterMap] at h
  rcases h with ⟨e0, he0, hfn⟩
  by_cases h1 : e0.from_ = u
  · rw [if_pos h1] at hfn
    have := Option.some_inj.mp hfn
    refine ⟨by rw [← show e0 = e from congrArg Prod.snd this]; exact he0, ?_⟩
    exact Or.inl (by rw [← show e0 = e from congrArg Prod.snd this,
      ← show e0.to_ = v from congrArg Prod.fst this])
  · rw [if_neg h1] at hfn
    by_cases h2 : e0.to_ = u
    · rw [if_pos h2] at hfn
      have := Option.some_inj.mp hfn
      refine ⟨by rw [← show e0 = e from congrArg Prod.snd this]; exact he0, ?_⟩
      exact Or.inr (by rw [← show e0 = e from congrArg Prod.snd this,
        ← show e0.from_ = v from congrArg Prod.fst this])
    · rw [if_neg h2] at hfn
      exact absurd hfn (by simp)

theorem oneEdgeGraph_closed : ∀ u v e, (v, e) ∈ oneEdgeGraph.neighbors u →
    v ∈ [0, 1] := by
  intro u v e h
  rcases graphImpl_neighbors_mem h with ⟨he, hv⟩
  have : e = ⟨0, 1, 5⟩ := by simpa [oneEdgeGraph, graphImpl] using he
  subst this
  rcases hv with hv | hv <;> simp [hv]

/-- C4 witness: the one-edge graph with node list `[0, 1]`. -/
theorem shortest_path_terminates_witness :
    ((0 : Nat) ∈ [0, 1])
    ∧ (∃ r, shortest_path oneEdgeGraph () 0 ([0, 1].length + 1) = some r) :=
  ⟨by simp,
    (shortest_path_terminates oneEdgeGraph () 0 [0, 1] (by simp) oneEdgeGraph_closed).1⟩

/-! ### C8: determinism -/

theorem dijkstraLoop_mono {g : Graph Node E Ctx} {ctx : Ctx} {f : Nat}
    {s r : DState Node E} (h : dijkstraLoop g ctx f s = some r) (k : Nat) :
    dijkstraLoop g ctx (f + k) s = some r := by
  induction f generalizing s with
  | zero => rw [dijkstraLoop_zero] at h; exact absurd h (by simp)
  | succ f ih =>
    rw [Nat.succ_add]
    cases hstep : dijkstraStep? g ctx s with
    | none =>
      rw [dijkstraLoop_succ_of_break f hstep] at h
      rw [dijkstraLoop_succ_of_break (f + k) hstep]
      exact h
    | some s' =>
      rw [dijkstraLoop_succ_of_step f hstep] at h
      rw [dijkstraLoop_succ_of_step (f + k) hstep]
      exact ih h

/-- C8: `shortest_path` is deterministic — any two runs on the same graph,
context and start that return (for any fuels) return the same result object,
in particular identical predecessor maps and hence identical reconstructed
path costs. -/
theorem shortest_path_deterministic (g : Graph Node E Ctx) (ctx : Ctx) (start : Node)
    (f1 f2 : Nat) (r1 r2 : ShortestPath Node E)
    (h1 : shortest_path g ctx start f1 = some r1)
    (h2 : shortest_path g ctx start f2 = some r2) : r1 = r2 := by
  rw [shortest_path] at h1 h2
  cases hs1 : dijkstraLoop g ctx f1 (initState start) with
  | none => rw [hs1] at h1; exact absurd h1 (by simp)
  | some s1 =>
    cases hs2 : dijkstraLoop g ctx f2 (initState start) with
    | none => rw [hs2] at h2; exact absurd h2 (by simp)
    | some s2 =>
      rw [hs1] at h1
      rw [hs2] at h2
      have hr1 : r1 = ShortestPath.mk s1.prev := (Option.some_inj.mp h1).symm
      have hr2 : r2 = ShortestPath.mk s2.prev := (Option.some_inj.mp h2).symm
      have hs : s1 = s2 := by
        rcases Nat.le_total f1 f2 with hle | hle
        · have := dijkstraLoop_mono hs1 (f2 - f1)
          rw [Nat.add_sub_cancel' hle] at this
          rw [this] at hs2
          exact Option.some_inj.mp hs2
        · have := dijkstraLoop_mono hs2 (f1 - f2)
          rw [Nat.add_sub_cancel' hle] at this
          rw [this] at hs1
          exact (Option.some_inj.mp hs1).symm
      rw [hr1, hr2, hs]

/-- C8 witness: two runs with different fuels on the one-edge graph agree. -/
theorem shortest_path_deterministic_witness :
    shortest_path oneEdgeGraph () 0 3 = some (ShortestPath.mk [(1, 0, ⟨0, 1, 5⟩)])
    ∧ shortest_path oneEdgeGraph () 0 4 = some (ShortestPath.mk [(1, 0, ⟨0, 1, 5⟩)])
    ∧ (ShortestPath.mk [(1, 0, ⟨0, 1, 5⟩)] : ShortestPath Nat EdgeImpl) =
        ShortestPath.mk [(1, 0, ⟨0, 1, 5⟩)] :=
  ⟨rfl, rfl, shortest_path_deterministic oneEdgeGraph () 0 3 4 _ _ rfl rfl⟩

/-! ### The Dijkstra loop invariant -/

/-- The invariant maintained by every iteration of the main loop (with `Nat`
costs, i.e. under the crate's non-negative cost assumption): the distance
table is sorted and sound (each entry is the cost of a real walk), the start
keeps distance zero, visited nodes carry their minimal walk cost, are below
the whole frontier and have all their outgoing hops relaxed, and each
predecessor entry records a visited predecessor via an actual neighbor hop
whose relaxation produced the recorded distance. -/
structure Inv (g : Graph Node E Ctx) (ctx : Ctx) (start : Node) (s : DState Node E) :
    Prop where
  sortedDist : btSorted s.distance
  nodupVisited : s.visited.Nodup
  visitedHas : ∀ v ∈ s.visited, ∃ d, btGet v s.distance = some d
  sound : ∀ v d, btGet v s.distance = some d → Reaches g ctx start v d
  startZero : btGet start s.distance = some 0
  visitedMin : ∀ v ∈ s.visited, ∀ d, btGet v s.distance = some d →
    ∀ d', Reaches g ctx start v d' → d ≤ d'
  visitedLe : ∀ u ∈ s.visited, ∀ du, btGet u s.distance = some du →
    ∀ v, v ∉ s.visited → ∀ d, btGet v s.distance = some d → du ≤ d
  visitedRelaxed : ∀ u ∈ s.visited, ∀ du, btGet u s.distance = some du →
    ∀ v e, (v, e) ∈ g.neighbors u →
      ∃ dv, btGet v s.distance = some dv ∧ dv ≤ du + g.cost e ctx
  prevChain : ∀ v u e, btGet v s.prev = some (u, e) → u ∈ s.visited
    ∧ (v, e) ∈ g.neighbors u
    ∧ ∃ du dv, btGet u s.distance = some du ∧ btGet v s.distance = some dv
        ∧ dv = du + g.cost e ctx

theorem inv_init (g : Graph Node E Ctx) (ctx : Ctx) (start : Node) :
    Inv g ctx start (initState start) := by
  have hd : (initState start : DState Node E).distance = [(start, 0)] := rfl
  constructor
  · rw [hd]
    exact btSorted_cons.mpr ⟨by simp, btSorted_nil⟩
  · exact List.nodup_nil
  · intro v hv
    simp [initState] at hv
  · intro v d h
    rw [hd] at h
    rw [btGet] at h
    by_cases hv : v = start
    · rw [if_pos hv] at h
      rw [hv, show d = 0 from (Option.some_inj.mp h).symm]
      exact Reaches.refl
    · rw [if_neg hv] at h
      rw [btGet] at h
      exact absurd h (by simp)
  · rw [hd, btGet, if_pos rfl]
  · intro v hv
    simp [initState] at hv
  · intro u hu
    simp [initState] at hu
  · intro u hu
    simp [initState] at hu
  · intro v u e h
    rw [show (initState start : DState Node E).prev = [] from rfl, btGet] at h
    exact absurd h (by simp)

/-- Any walk ending outside the visited set passes, at its first exit from
the visited region, through a frontier entry with distance below the walk's
cost. -/
theorem frontier_reachable_bound {g : Graph Node E Ctx} {ctx : Ctx} {start : Node}
    {s : DState Node E} (inv : Inv g ctx start s) :
    ∀ v d', Reaches g ctx start v d' → v ∉ s.visited →
      ∃ z dz, z ∉ s.visited ∧ btGet z s.distance = some dz ∧ dz ≤ d' := by
  intro v d' hr
  induction hr with
  | refl =>
    intro hv
    exact ⟨start, 0, hv, inv.startZero, le_refl 0⟩
  | @step u c w e hru hedge ihu =>
    intro hw
    by_cases hu : u ∈ s.visited
    · rcases inv.visitedHas u hu with ⟨du, hdu⟩
      have hduc : du ≤ c := inv.visitedMin u hu du hdu c hru
      rcases inv.visitedRelaxed u hu du hdu w e hedge with ⟨dw, hdw, hle⟩
      exact ⟨w, dw, hw, hdw, le_trans hle (Nat.add_le_add_right hduc _)⟩
    · rcases ihu hu with ⟨z, dz, hz1, hz2, hz3⟩
      exact ⟨z, dz, hz1, hz2, le_trans hz3 (Nat.le_add_right c _)⟩

/-- The `min_by` selection of the loop is optimal: its recorded distance is
the minimal cost of any walk from the start to it. -/
theorem selected_min_optimal {g : Graph Node E Ctx} {ctx : Ctx} {start : Node}
    {s : DState Node E} (inv : Inv g ctx start s) {md : Node × Nat}
    (hm : minBy (s.distance.filter (fun p => decide (p.1 ∉ s.visited))) = some md) :
    Reaches g ctx start md.1 md.2 ∧ ∀ d', Reaches g ctx start md.1 d' → md.2 ≤ d' := by
  rcases step_min_facts hm with ⟨hmem, hnv, hmin⟩
  have hget := btGet_of_mem_sorted inv.sortedDist hmem
  refine ⟨inv.sound md.1 md.2 hget, ?_⟩
  intro d' hr
  rcases frontier_reachable_bound inv md.1 d' hr hnv with ⟨z, dz, hz1, hz2, hz3⟩
  exact le_trans (hmin (z, dz) (btGet_some_mem hz2) hz1) hz3

/-- Entries at or below the finalized distance are frozen by the relaxation
fold: every written value is at least `dm`, and overwrites only lower. -/
theorem relax_freeze (g : Graph Node E Ctx) (ctx : Ctx) (m : Node) (dm : Nat)
    (hops : List (Node × E)) (dp : List (Node × Nat) × List (Node × Node × E))
    {v : Node} {d : Nat} (hget : btGet v dp.1 = some d) (hle : d ≤ dm) :
    btGet v (hops.foldl (relaxOne g ctx m dm) dp).1 = some d := by
  rcases relax_coupling g ctx m dm hops dp v with ⟨h1, _⟩ | ⟨e, _, h1, _⟩
  · rw [h1]; exact hget
  · rcases relax_mono g ctx m dm hops dp v d hget with ⟨d', hd', hled⟩
    rw [h1] at hd'
    have heq : dm + g.cost e ctx = d' := Option.some_inj.mp hd'
    have hdm : dm ≤ d' := heq ▸ Nat.le_add_right dm _
    have : d' = d := le_antisymm hled (le_trans hle hdm)
    rw [h1, heq, this]

/-- The loop invariant is preserved by each iteration. -/
theorem inv_step {g : Graph Node E Ctx} {ctx : Ctx} {start : Node}
    {s s' : DState Node E} (inv : Inv g ctx start s)
    (h : dijkstraStep? g ctx s = some s') : Inv g ctx start s' := by
  rcases step_some_elim h with ⟨md, hm, hs'⟩
  rcases step_min_facts hm with ⟨hmem, hnv, hmin⟩
  have hget : btGet md.1 s.distance = some md.2 :=
    btGet_of_mem_sorted inv.sortedDist hmem
  have hF2 : ∀ v d, v ∉ s.visited → btGet v s.distance = some d → md.2 ≤ d :=
    fun v d hv hg => hmin (v, d) (btGet_some_mem hg) hv
  have hopt := selected_min_optimal inv hm
  have hvisle : ∀ u ∈ s.visited, ∀ du, btGet u s.distance = some du → du ≤ md.2 :=
    fun u hu du hdu => inv.visitedLe u hu du hdu md.1 hnv md.2 hget
  subst hs'
  constructor
  · exact relax_sorted g ctx md.1 md.2 (g.neighbors md.1) (s.distance, s.prev)
      inv.sortedDist
  · exact List.Nodup.cons hnv inv.nodupVisited
  · intro v hv
    rcases List.mem_cons.mp hv with hv | hv
    · refine ⟨md.2, relax_freeze g ctx md.1 md.2 (g.neighbors md.1) (s.distance, s.prev)
        ?_ (le_refl md.2)⟩
      rw [hv]
      exact hget
    · rcases inv.visitedHas v hv with ⟨du, hdu⟩
      exact ⟨du, relax_freeze g ctx md.1 md.2 (g.neighbors md.1) (s.distance, s.prev)
        hdu (hvisle v hv du hdu)⟩
  · intro v d hd
    rcases relax_coupling g ctx md.1 md.2 (g.neighbors md.1) (s.distance, s.prev) v
      with ⟨h1, _⟩ | ⟨e, he, h1, _⟩
    · rw [h1] at hd
      exact inv.sound v d hd
    · rw [h1] at hd
      rw [show d = md.2 + g.cost e ctx from (Option.some_inj.mp hd).symm]
      exact Reaches.step hopt.1 he
  · exact relax_freeze g ctx md.1 md.2 (g.neighbors md.1) (s.distance, s.prev)
      inv.startZero (Nat.zero_le md.2)
  · intro v hv d hd d' hr
    rcases List.mem_cons.mp hv with hv | hv
    · have hfr : btGet md.1 ((g.neighbors md.1).foldl (relaxOne g ctx md.1 md.2)
          (s.distance, s.prev)).1 = some md.2 :=
        relax_freeze g ctx md.1 md.2 (g.neighbors md.1) (s.distance, s.prev) hget
          (le_refl md.2)
      rw [hv, hfr] at hd
      rw [hv] at hr
      rw [show d = md.2 from (Option.some_inj.mp hd).symm]
      exact hopt.2 d' hr
    · rcases inv.visitedHas v hv with ⟨du, hdu⟩
      have hfr := relax_freeze g ctx md.1 md.2 (g.neighbors md.1) (s.distance, s.prev) hdu
        (hvisle v hv du hdu)
      rw [hfr] at hd
      rw [show d = du from (Option.some_inj.mp hd).symm]
      exact inv.visitedMin v hv du hdu d' hr
  · intro u hu du hdu v hv d hd
    have hvn : v ∉ s.visited := fun hc => hv (List.mem_cons.mpr (Or.inr hc))
    have hvne : v ≠ md.1 := fun hc => hv (List.mem_cons.mpr (Or.inl hc))
    have hdule : du ≤ md.2 := by
      rcases List.mem_cons.mp hu with hu | hu
      · have hfr := relax_freeze g ctx md.1 md.2 (g.neighbors md.1) (s.distance, s.prev) hget
          (le_refl md.2)
        rw [hu, hfr] at hdu
        rw [show du = md.2 from (Option.some_inj.mp hdu).symm]
      · rcases inv.visitedHas u hu with ⟨du0, hdu0⟩
        have hle0 := hvisle u hu du0 hdu0
        have hfr := relax_freeze g ctx md.1 md.2 (g.neighbors md.1) (s.distance, s.prev) hdu0 hle0
        rw [hfr] at hdu
        rw [show du = du0 from (Option.some_inj.mp hdu).symm]
        exact hle0
    rcases relax_coupling g ctx md.1 md.2 (g.neighbors md.1) (s.distance, s.prev) v
      with ⟨h1, _⟩ | ⟨e, _, h1, _⟩
    · rw [h1] at hd
      exact le_trans hdule (hF2 v d hvn hd)
    · rw [h1] at hd
      rw [show d = md.2 + g.cost e ctx from (Option.some_inj.mp hd).symm]
      exact le_trans hdule (Nat.le_add_right md.2 _)
  · intro u hu du hdu v e hedge
    rcases List.mem_cons.mp hu with hu | hu
    · have hfr := relax_freeze g ctx md.1 md.2 (g.neighbors md.1) (s.distance, s.prev) hget
        (le_refl md.2)
      rw [hu, hfr] at hdu
      rw [hu] at hedge
      rcases relax_bound g ctx md.1 md.2 (g.neighbors md.1) (s.distance, s.prev)
        (v, e) hedge with ⟨dv, hdv, hle⟩
      refine ⟨dv, hdv, ?_⟩
      rw [show du = md.2 from (Option.some_inj.mp hdu).symm]
      exact hle
    · rcases inv.visitedHas u hu with ⟨du0, hdu0⟩
      have hle0 := hvisle u hu du0 hdu0
      have hfr := relax_freeze g ctx md.1 md.2 (g.neighbors md.1) (s.distance, s.prev) hdu0 hle0
      rw [hfr] at hdu
      rcases inv.visitedRelaxed u hu du0 hdu0 v e hedge with ⟨dv, hdv, hlev⟩
      rcases relax_mono g ctx md.1 md.2 (g.neighbors md.1) (s.distance, s.prev) v dv hdv
        with ⟨dv', hdv', hlev'⟩
      refine ⟨dv', hdv', ?_⟩
      rw [show du = du0 from (Option.some_inj.mp hdu).symm]
      exact le_trans hlev' hlev
  · intro v u e hpe
    rcases relax_coupling g ctx md.1 md.2 (g.neighbors md.1) (s.distance, s.prev) v
      with ⟨h1, h2⟩ | ⟨e0, he0, h1, h2⟩
    · rw [h2] at hpe
      rcases inv.prevChain v u e hpe with ⟨huv, hedge, du, dv, hdu, hdv, hsum⟩
      refine ⟨List.mem_cons.mpr (Or.inr huv), hedge, du, dv, ?_, ?_, hsum⟩
      · rcases inv.visitedHas u huv with ⟨du0, hdu0⟩
        rw [hdu0] at hdu
        rw [show du = du0 from (Option.some_inj.mp hdu).symm]
        exact relax_freeze g ctx md.1 md.2 (g.neighbors md.1) (s.distance, s.prev) hdu0
          (hvisle u huv du0 hdu0)
      · rw [h1]
        exact hdv
    · rw [h2] at hpe
      have heq : (md.1, e0) = (u, e) := Option.some_inj.mp hpe
      have hu : md.1 = u := congrArg Prod.fst heq
      have he : e0 = e := congrArg Prod.snd heq
      refine ⟨List.mem_cons.mpr (Or.inl hu.symm), by rw [← hu, ← he]; exact he0,
        md.2, md.2 + g.cost e ctx, ?_, ?_, rfl⟩
      · rw [← hu]
        exact relax_freeze g ctx md.1 md.2 (g.neighbors md.1) (s.distance, s.prev) hget
          (le_refl md.2)
      · rw [← he]
        exact h1

/-- Every state reached by the loop satisfies the invariant. -/
theorem inv_iter {g : Graph Node E Ctx} {ctx : Ctx} {start : Node} :
    ∀ (n : Nat) (s : DState Node E),
      iterState g ctx (initState start) n = some s → Inv g ctx start s := by
  intro n
  induction n with
  | zero =>
    intro s h
    rw [← Option.some_inj.mp (show some (initState start) = some s from h)]
    exact inv_init g ctx start
  | succ n ih =>
    intro s h
    rw [show iterState g ctx (initState start) (n + 1) =
      (iterState g ctx (initState start) n).bind (dijkstraStep? g ctx) from rfl] at h
    cases h0 : iterState g ctx (initState start) n with
    | none => rw [h0] at h; exact absurd h (by simp)
    | some s0 =>
      rw [h0] at h
      exact inv_step (ih s0 h0) h

theorem iterState_front {g : Graph Node E Ctx} {ctx : Ctx} {s0 s1 : DState Node E}
    (h : dijkstraStep? g ctx s0 = some s1) :
    ∀ n, iterState g ctx s0 (n + 1) = iterState g ctx s1 n := by
  intro n
  induction n with
  | zero => exact h
  | succ n ih =>
    rw [show iterState g ctx s0 (n + 1 + 1) =
      (iterState g ctx s0 (n + 1)).bind (dijkstraStep? g ctx) from rfl, ih]
    rfl

/-- A value returned by the fueled loop is a state reached by iterating the
step function. -/
theorem dijkstraLoop_to_iterState {g : Graph Node E Ctx} {ctx : Ctx} :
    ∀ (fuel : Nat) (s0 r : DState Node E), dijkstraLoop g ctx fuel s0 = some r →
      ∃ n, iterState g ctx s0 n = some r := by
  intro fuel
  induction fuel with
  | zero =>
    intro s0 r h
    rw [dijkstraLoop_zero] at h
    exact absurd h (by simp)
  | succ fuel ih =>
    intro s0 r h
    cases hstep : dijkstraStep? g ctx s0 with
    | none =>
      rw [dijkstraLoop_succ_of_break fuel hstep] at h
      exact ⟨0, by rw [show iterState g ctx s0 0 = some s0 from rfl,
        Option.some_inj.mp h]⟩
    | some s1 =>
      rw [dijkstraLoop_succ_of_step fuel hstep] at h
      rcases ih s1 r h with ⟨n, hn⟩
      exact ⟨n + 1, by rw [iterState_front hstep n]; exact hn⟩

/-! ### C6: distance table invariants -/

/-- C6: throughout the loop (any reachable iteration state): (a) a step
overwrites distance entries only with values less than or equal to the old
ones; (b) a step never changes the recorded distance of an already-visited
node; (c) every visited node's recorded distance is the cost of a real walk
from the start and minimal among all such walk costs (`Nat` costs embody the
non-negative-cost assumption). -/
theorem distance_invariants (g : Graph Node E Ctx) (ctx : Ctx) (start : Node)
    (n : Nat) (s : DState Node E)
    (h : iterState g ctx (initState start) n = some s) :
    (∀ s' : DState Node E, dijkstraStep? g ctx s = some s' →
      ∀ v d d', btGet v s.distance = some d → btGet v s'.distance = some d' → d' ≤ d)
    ∧ (∀ s' : DState Node E, dijkstraStep? g ctx s = some s' →
      ∀ v ∈ s.visited, btGet v s'.distance = btGet v s.distance)
    ∧ (∀ v ∈ s.visited, ∃ d, btGet v s.distance = some d ∧ Reaches g ctx start v d
        ∧ ∀ d', Reaches g ctx start v d' → d ≤ d') := by
  have inv := inv_iter n s h
  refine ⟨?_, ?_, ?_⟩
  · intro s' hstep v d d' hd hd'
    rcases step_some_elim hstep with ⟨md, hm, hs'⟩
    rcases relax_mono g ctx md.1 md.2 (g.neighbors md.1) (s.distance, s.prev) v d hd
      with ⟨d0, hd0, hle⟩
    rw [hs'] at hd'
    have hd2 : btGet v ((g.neighbors md.1).foldl (relaxOne g ctx md.1 md.2)
        (s.distance, s.prev)).1 = some d' := hd'
    rw [hd0] at hd2
    rw [← Option.some_inj.mp hd2]
    exact hle
  · intro s' hstep v hv
    rcases step_some_elim hstep with ⟨md, hm, hs'⟩
    rcases step_min_facts hm with ⟨hmem, hnv, _⟩
    have hget := btGet_of_mem_sorted inv.sortedDist hmem
    rcases inv.visitedHas v hv with ⟨du, hdu⟩
    have hle : du ≤ md.2 := inv.visitedLe v hv du hdu md.1 hnv md.2 hget
    have hfr := relax_freeze g ctx md.1 md.2 (g.neighbors md.1) (s.distance, s.prev)
      hdu hle
    rw [hs']
    show btGet v ((g.neighbors md.1).foldl (relaxOne g ctx md.1 md.2)
      (s.distance, s.prev)).1 = btGet v s.distance
    rw [hfr, hdu]
  · intro v hv
    rcases inv.visitedHas v hv with ⟨du, hdu⟩
    exact ⟨du, hdu, inv.sound v du hdu, inv.visitedMin v hv du hdu⟩

/-- The state of the one-edge graph after one loop iteration. -/
def oneEdgeMid : DState Nat EdgeImpl :=
  ⟨[(0, 0), (1, 5)], [(1, 0, ⟨0, 1, 5⟩)], [0]⟩

/-- C6 witness: the state after one iteration on the one-edge graph. -/
theorem distance_invariants_witness :
    iterState oneEdgeGraph () (initState 0) 1 = some oneEdgeMid
    ∧ ((∀ s' : DState Nat EdgeImpl, dijkstraStep? oneEdgeGraph () oneEdgeMid = some s' →
        ∀ v d d', btGet v oneEdgeMid.distance = some d →
          btGet v s'.distance = some d' → d' ≤ d)
      ∧ (∀ s' : DState Nat EdgeImpl, dijkstraStep? oneEdgeGraph () oneEdgeMid = some s' →
        ∀ v ∈ oneEdgeMid.visited, btGet v s'.distance = btGet v oneEdgeMid.distance)
      ∧ (∀ v ∈ oneEdgeMid.visited, ∃ d, btGet v oneEdgeMid.distance = some d
          ∧ Reaches oneEdgeGraph () 0 v d
          ∧ ∀ d', Reaches oneEdgeGraph () 0 v d' → d ≤ d')) :=
  ⟨rfl, distance_invariants oneEdgeGraph () 0 1 oneEdgeMid rfl⟩

/-! ### C3: prev, unreachable nodes and the start -/

/-- With strictly positive edge costs, the start never acquires a
predecessor: any write to its entry would need `md.2 + cost ≤ 0`. -/
theorem prev_start_none_aux {g : Graph Node E Ctx} {ctx : Ctx} {start : Node}
    (hpos : ∀ u v e, (v, e) ∈ g.neighbors u → 1 ≤ g.cost e ctx) :
    ∀ (n : Nat) (s : DState Node E),
      iterState g ctx (initState start) n = some s → btGet start s.prev = none := by
  intro n
  induction n with
  | zero =>
    intro s h
    rw [← Option.some_inj.mp (show some (initState start) = some s from h)]
    rfl
  | succ n ih =>
    intro s h
    rw [show iterState g ctx (initState start) (n + 1) =
      (iterState g ctx (initState start) n).bind (dijkstraStep? g ctx) from rfl] at h
    cases h0 : iterState g ctx (initState start) n with
    | none => rw [h0] at h; exact absurd h (by simp)
    | some s0 =>
      rw [h0] at h
      have hstep : dijkstraStep? g ctx s0 = some s := h
      have inv0 := inv_iter n s0 h0
      rcases step_some_elim hstep with ⟨md, hm, hs'⟩
      rcases relax_coupling g ctx md.1 md.2 (g.neighbors md.1) (s0.distance, s0.prev)
        start with ⟨h1, h2⟩ | ⟨e, he, h1, h2⟩
      · rw [hs']
        show btGet start ((g.neighbors md.1).foldl (relaxOne g ctx md.1 md.2)
          (s0.distance, s0.prev)).2 = none
        rw [h2]
        exact ih s0 h0
      · have hfr := relax_freeze g ctx md.1 md.2 (g.neighbors md.1)
          (s0.distance, s0.prev) inv0.startZero (Nat.zero_le md.2)
        rw [h1] at hfr
        have h00 : md.2 + g.cost e ctx = 0 := Option.some_inj.mp hfr
        have hc := hpos md.1 start e he
        omega

/-- C3 (amended): on any returned `shortest_path` result, `prev` is nothing
for every node unreachable from the start; and `prev(start)` is nothing
provided every edge cost is strictly positive — with a zero-cost edge, a
zero-cost cycle can hand the start node a predecessor (see the
counterexample), so the unconditional claim about the start fails. -/
theorem prev_none_unreachable (g : Graph Node E Ctx) (ctx : Ctx) (start : Node)
    (fuel : Nat) (sp : ShortestPath Node E)
    (h : shortest_path g ctx start fuel = some sp) :
    (∀ v, (∀ d, ¬ Reaches g ctx start v d) → sp.prev v = none)
    ∧ ((∀ u v e, (v, e) ∈ g.neighbors u → 1 ≤ g.cost e ctx) →
        sp.prev start = none) := by
  rw [shortest_path] at h
  cases hs : dijkstraLoop g ctx fuel (initState start) with
  | none => rw [hs] at h; exact absurd h (by simp)
  | some s =>
    rw [hs] at h
    have hsp : sp = ShortestPath.mk s.prev := (Option.some_inj.mp h).symm
    rcases dijkstraLoop_to_iterState fuel (initState start) s hs with ⟨n, hn⟩
    have inv := inv_iter n s hn
    constructor
    · intro v hv
      rw [hsp]
      show btGet v s.prev = none
      cases hp : btGet v s.prev with
      | none => rfl
      | some ue =>
        obtain ⟨u, e⟩ := ue
        rcases inv.prevChain v u e hp with ⟨_, _, du, dv, _, hdv, _⟩
        exact absurd (inv.sound v dv hdv) (hv dv)
    · intro hpos
      rw [hsp]
      show btGet start s.prev = none
      exact prev_start_none_aux hpos n s hn

/-- C3 counterexample: in the zero-cost two-node graph, after
`shortest_path` from start 0, `prev(0)` — the start itself — is
`some (1, edge)`, not nothing: the `>=` tie relaxation walks the zero-cost
cycle back onto the start. -/
theorem prev_start_counterexample :
    (shortest_path zeroGraph () 0 3).bind (fun sp => sp.prev 0) = some (1, ⟨0, 1, 0⟩)
    ∧ ¬ ((shortest_path zeroGraph () 0 3).bind (fun sp => sp.prev 0) = none) :=
  ⟨rfl, by decide⟩

/-- C3 witness: the amended claim applied to the one-edge graph. -/
theorem prev_none_unreachable_witness :
    shortest_path oneEdgeGraph () 0 3 = some (ShortestPath.mk [(1, 0, ⟨0, 1, 5⟩)])
    ∧ ((∀ v, (∀ d, ¬ Reaches oneEdgeGraph () 0 v d) →
        (ShortestPath.mk [(1, 0, ⟨0, 1, 5⟩)] : ShortestPath Nat EdgeImpl).prev v = none)
      ∧ ((∀ u v e, (v, e) ∈ oneEdgeGraph.neighbors u → 1 ≤ oneEdgeGraph.cost e ()) →
        (ShortestPath.mk [(1, 0, ⟨0, 1, 5⟩)] :
          ShortestPath Nat EdgeImpl).prev 0 = none)) :=
  ⟨rfl, prev_none_unreachable oneEdgeGraph () 0 3
    (ShortestPath.mk [(1, 0, ⟨0, 1, 5⟩)]) rfl⟩

/-! ### C10: acyclicity and sequence termination -/

/-- The predecessor structure `shortest_path` produces on the zero-cost
graph: a two-cycle between nodes 0 and 1. -/
def zeroCycleSP : ShortestPath Nat EdgeImpl :=
  ShortestPath.mk [(0, 1, ⟨0, 1, 0⟩), (1, 0, ⟨0, 1, 0⟩)]

/-- On the zero-cost cycle, the sequence loop from goal 1 towards the
unreachable start 2 never exits, whatever the fuel. -/
theorem zero_cycle_sequence_diverges :
    ∀ f, sequenceAux zeroCycleSP 2 f 1 = none ∧ sequenceAux zeroCycleSP 2 f 0 = none := by
  intro f
  induction f with
  | zero => exact ⟨rfl, rfl⟩
  | succ f ih =>
    constructor
    · rw [sequenceAux, if_neg (by decide : ¬ (1 : Nat) = 2)]
      rw [show zeroCycleSP.prev 1 = some ((0 : Nat), (⟨0, 1, 0⟩ : EdgeImpl)) from rfl]
      show (sequenceAux zeroCycleSP 2 f 0).map
        (fun rest => ((0 : Nat), (⟨0, 1, 0⟩ : EdgeImpl)) :: rest) = none
      rw [ih.2]
      rfl
    · rw [sequenceAux, if_neg (by decide : ¬ (0 : Nat) = 2)]
      rw [show zeroCycleSP.prev 0 = some ((1 : Nat), (⟨0, 1, 0⟩ : EdgeImpl)) from rfl]
      show (sequenceAux zeroCycleSP 2 f 1).map
        (fun rest => ((1 : Nat), (⟨0, 1, 0⟩ : EdgeImpl)) :: rest) = none
      rw [ih.1]
      rfl

/-- If each predecessor hop strictly decreases a recorded distance, the
backward walk terminates from every node, with any start argument. -/
theorem seq_terminates_of_decreasing {sp : ShortestPath Node E}
    {dist : List (Node × Nat)}
    (hdec : ∀ v u e, sp.prev v = some (u, e) →
      ∃ du dv, btGet u dist = some du ∧ btGet v dist = some dv ∧ du < dv)
    (hkeys : ∀ v p, sp.prev v = some p → ∃ dv, btGet v dist = some dv) :
    ∀ start0 goal : Node, ∃ f l, sp.sequence start0 goal f = some l := by
  intro start0
  have main : ∀ (d : Nat) (v : Node) (dv : Nat), btGet v dist = some dv → dv ≤ d →
      ∃ f l, sequenceAux sp start0 f v = some l := by
    intro d
    induction d with
    | zero =>
      intro v dv hv hle
      by_cases hst : v = start0
      · exact ⟨1, [], by rw [sequenceAux, if_pos hst]⟩
      · cases hp : sp.prev v with
        | none => exact ⟨1, [], by rw [sequenceAux, if_neg hst, hp]⟩
        | some ue =>
          obtain ⟨u, e⟩ := ue
          rcases hdec v u e hp with ⟨du, dv', hdu, hdv', hlt⟩
          rw [hv] at hdv'
          have hdvd : dv = dv' := Option.some_inj.mp hdv'
          exact absurd hlt (by omega)
    | succ d ihd =>
      intro v dv hv hle
      by_cases hst : v = start0
      · exact ⟨1, [], by rw [sequenceAux, if_pos hst]⟩
      · cases hp : sp.prev v with
        | none => exact ⟨1, [], by rw [sequenceAux, if_neg hst, hp]⟩
        | some ue =>
          obtain ⟨u, e⟩ := ue
          rcases hdec v u e hp with ⟨du, dv', hdu, hdv', hlt⟩
          rw [hv] at hdv'
          have hdvd : dv = dv' := Option.some_inj.mp hdv'
          rcases ihd u du hdu (by omega) with ⟨f, l, hf⟩
          refine ⟨f + 1, (u, e) :: l, ?_⟩
          rw [sequenceAux, if_neg hst, hp]
          show (sequenceAux sp start0 f u).map
            (fun rest => ((u, e) : Node × E) :: rest) = some ((u, e) :: l)
          rw [hf]
          rfl
  intro goal
  cases hg : btGet goal dist with
  | some dgoal => exact main dgoal goal dgoal hg (le_refl dgoal)
  | none =>
    by_cases hst : goal = start0
    · exact ⟨1, [], by rw [ShortestPath.sequence, sequenceAux, if_pos hst]⟩
    · cases hp : sp.prev goal with
      | none =>
        exact ⟨1, [], by rw [ShortestPath.sequence, sequenceAux, if_neg hst, hp]⟩
      | some p =>
        rcases hkeys goal p hp with ⟨dgoal, hdg⟩
        rw [hg] at hdg
        exact absurd hdg (by simp)

/-- C10: with strictly positive edge costs every predecessor link strictly
decreases the recorded distance — the predecessor structure is acyclic — so
`sequence` terminates for every pair of endpoints; without strict
positivity, the predecessor map can be a genuine cycle on which the
sequence loop never exits (the zero-cost two-node graph). -/
theorem prev_acyclic_sequence_terminates (g : Graph Node E Ctx) (ctx : Ctx)
    (start : Node) (fuel : Nat) (s : DState Node E)
    (h : dijkstraLoop g ctx fuel (initState start) = some s)
    (hpos : ∀ u v e, (v, e) ∈ g.neighbors u → 1 ≤ g.cost e ctx) :
    (∀ v u e, btGet v s.prev = some (u, e) →
      ∃ du dv, btGet u s.distance = some du ∧ btGet v s.distance = some dv ∧ du < dv)
    ∧ (∀ start0 goal : Node, ∃ f l,
        ShortestPath.sequence (ShortestPath.mk s.prev) start0 goal f = some l)
    ∧ (shortest_path zeroGraph () 0 3 = some zeroCycleSP
      ∧ zeroCycleSP.prev 0 = some (1, ⟨0, 1, 0⟩)
      ∧ zeroCycleSP.prev 1 = some (0, ⟨0, 1, 0⟩)
      ∧ ∀ f, zeroCycleSP.sequence 2 1 f = none) := by
  rcases dijkstraLoop_to_iterState fuel (initState start) s h with ⟨n, hn⟩
  have inv := inv_iter n s hn
  have hdec : ∀ v u e, btGet v s.prev = some (u, e) →
      ∃ du dv, btGet u s.distance = some du ∧ btGet v s.distance = some dv
        ∧ du < dv := by
    intro v u e hp
    rcases inv.prevChain v u e hp with ⟨hu, hedge, du, dv, hdu, hdv, hsum⟩
    have hc := hpos u v e hedge
    exact ⟨du, dv, hdu, hdv, by omega⟩
  have hkeys : ∀ (v : Node) (p : Node × E), btGet v s.prev = some p →
      ∃ dv, btGet v s.distance = some dv := by
    intro v p hp
    obtain ⟨u, e⟩ := p
    rcases inv.prevChain v u e hp with ⟨_, _, du, dv, _, hdv, _⟩
    exact ⟨dv, hdv⟩
  exact ⟨hdec, seq_terminates_of_decreasing hdec hkeys, rfl, rfl, rfl,
    fun f => (zero_cycle_sequence_diverges f).1⟩

theorem oneEdgeGraph_pos : ∀ u v e, (v, e) ∈ oneEdgeGraph.neighbors u →
    1 ≤ oneEdgeGraph.cost e () := by
  intro u v e h
  rcases graphImpl_neighbors_mem h with ⟨he, _⟩
  have : e = ⟨0, 1, 5⟩ := by simpa [oneEdgeGraph, graphImpl] using he
  rw [this]
  decide

/-- The final loop state of the one-edge graph. -/
def oneEdgeFinal : DState Nat EdgeImpl :=
  ⟨[(0, 0), (1, 5)], [(1, 0, ⟨0, 1, 5⟩)], [1, 0]⟩

/-- C10 witness: the strictly positive one-edge graph. -/
theorem prev_acyclic_sequence_terminates_witness :
    dijkstraLoop oneEdgeGraph () 3 (initState 0) = some oneEdgeFinal
    ∧ ((∀ v u e, btGet v oneEdgeFinal.prev = some (u, e) →
        ∃ du dv, btGet u oneEdgeFinal.distance = some du
          ∧ btGet v oneEdgeFinal.distance = some dv ∧ du < dv)
      ∧ (∀ start0 goal : Nat, ∃ f l,
          ShortestPath.sequence (ShortestPath.mk oneEdgeFinal.prev) start0 goal f =
            some l)
      ∧ (shortest_path zeroGraph () 0 3 = some zeroCycleSP
        ∧ zeroCycleSP.prev 0 = some (1, ⟨0, 1, 0⟩)
        ∧ zeroCycleSP.prev 1 = some (0, ⟨0, 1, 0⟩)
        ∧ ∀ f, zeroCycleSP.sequence 2 1 f = none)) :=
  ⟨rfl, prev_acyclic_sequence_terminates oneEdgeGraph () 0 3 oneEdgeFinal rfl
    oneEdgeGraph_pos⟩

/-- C7 witness: a concrete isolated start node (node 7 in the zero graph has
no incident edges). -/
theorem self_sequence_empty_witness :
    zeroGraph.neighbors 7 = []
    ∧ shortest_path zeroGraph () 7 2 = some (ShortestPath.mk [])
    ∧ (ShortestPath.mk [] : ShortestPath Nat EdgeImpl).prev 7 = none
    ∧ (ShortestPath.mk [] : ShortestPath Nat EdgeImpl).sequence 7 7 1 = some [] :=
  ⟨rfl, (self_sequence_empty.2 zeroGraph () 7 rfl)⟩

end DijkstraSearch
